import Mathlib

set_option maxHeartbeats 1000000
set_option autoImplicit false

/-!
Formal model of the zstr.h growable string library (z-libs collection),
together with proofs and refutations of its specification claims.

Modeling conventions, used throughout:

* Bytes are natural numbers (0..255 in valid data); buffers are lists of bytes.
* The C struct `zstr` is a tagged union of a 23-byte inline (SSO) arm
  (ZSTR_SSO_CAP = 23) and a heap arm (pointer, length, capacity).  The model
  keeps both arms as separate record fields; the active arm is selected by
  `is_long`, exactly as every accessor in the source dispatches on
  `s->is_long`.  Bytes of the inactive arm are never observable through the
  API, so keeping them side by side is faithful to the union.
* A heap buffer of capacity `cap` holds `cap + 1` bytes (room for the
  terminator).  Bytes that malloc returns but the source never writes are
  modeled as 0.
* The allocator is modeled by an explicit `ok : Bool` argument on every
  operation that may call malloc / realloc: `ok = true` means the allocation
  call succeeds, `ok = false` means it returns NULL.  The source checks the
  returned pointer right after the call, so hoisting the check is faithful.
* size_t arithmetic is modeled as Nat, with an explicit `% 2 ^ 64` at the
  places where a claim's truth depends on wrap-around (`zstr_sub`'s
  `start + len`, `zstr_replace`'s `repl_len - target_len`), and `% 256`
  wherever the source casts to uint8_t.
* C-string arguments (`const char *`) are modeled as the list of bytes that
  precede the terminating NUL.  Reads that the source performs one past a
  short list (it reads the NUL terminator there) are modeled with
  `List.getD _ _ 0`, i.e. out-of-list reads give the byte 0.
-/

/-- Model of `memcpy(buf + pos, src, src_len)`: overwrite `src.length` bytes of
`buf` starting at `pos`. -/
def memWrite (buf : List Nat) (pos : Nat) (src : List Nat) : List Nat :=
  buf.take pos ++ src ++ buf.drop (pos + src.length)

/-- Model of `struct zstr`:  `is_long` is the discriminator, `s_buf`/`s_len`
model the `zstr_short` arm (`char buf[23]; uint8_t len`), and
`l_ptr`/`l_len`/`l_cap` model the `zstr_long` arm
(`char *ptr; size_t len; size_t cap`). -/
structure zstr where
  is_long : Bool
  s_buf : List Nat
  s_len : Nat
  l_ptr : List Nat
  l_len : Nat
  l_cap : Nat
deriving DecidableEq, Repr

/-- zstr_init: memset the whole struct to zero (inline, empty, NULL heap pointer). -/
def zstr_init : zstr := ⟨false, List.replicate 23 0, 0, [], 0, 0⟩

/-- zstr_len: dispatch on the discriminator. -/
def zstr_len (s : zstr) : Nat := if s.is_long then s.l_len else s.s_len

/-- The buffer that zstr_data / zstr_cstr return a pointer into. -/
def zstr_buf (s : zstr) : List Nat := if s.is_long then s.l_ptr else s.s_buf

/-- The logical content: the first `zstr_len` bytes of the data buffer. -/
def zstr_content (s : zstr) : List Nat := (zstr_buf s).take (zstr_len s)

/-- The bytes a C-string consumer (strstr, strcpy, ...) reads through
zstr_cstr: everything up to the first NUL byte. -/
def zstr_cstr_bytes (s : zstr) : List Nat := (zstr_buf s).takeWhile (fun b => b != 0)

/-- zstr_clear: set the active length to 0 and write a terminator at offset 0
of the active buffer; nothing else is touched. -/
def zstr_clear (s : zstr) : zstr :=
  if s.is_long then { s with l_len := 0, l_ptr := s.l_ptr.set 0 0 }
  else { s with s_len := 0, s_buf := s.s_buf.set 0 0 }

/-- zstr_reserve: no-op below the SSO capacity or when a long string already
has enough room; otherwise malloc (promoting, copying the inline bytes plus
terminator) or realloc (keeping the prefix, new bytes unwritten). -/
def zstr_reserve (ok : Bool) (s : zstr) (new_cap : Nat) : zstr × Bool :=
  if new_cap < 23 then (s, true)
  else if s.is_long = true ∧ new_cap ≤ s.l_cap then (s, true)
  else if ok = false then (s, false)
  else if s.is_long = true then
    ({ s with l_ptr := s.l_ptr.take (new_cap + 1) ++
                       List.replicate (new_cap + 1 - s.l_ptr.length) 0,
              l_cap := new_cap }, true)
  else
    ({ s with is_long := true, l_len := s.s_len,
              l_ptr := (s.s_buf.take s.s_len ++ [0]) ++
                       List.replicate (new_cap - s.s_len) 0,
              l_cap := new_cap }, true)

/-- zstr_shrink_to_fit.  The demotion branch runs whenever `l_len ≤ 23`
(the source checks `s->l.len <= ZSTR_SSO_CAP`); it copies `l_len` bytes into
`char temp[23]`, writes `temp[l_len] = 0`, and memcpy's `old_len + 1` bytes
back into the 23-byte inline buffer — when `l_len = 23` that writes one byte
past both 23-byte arrays (the byte lands on the `s_len` field, which the
next store overwrites), so the model truncates the copy to the 23 in-bounds
bytes.  The realloc branch shrinks the heap buffer to `l_len + 1` bytes. -/
def zstr_shrink_to_fit (ok : Bool) (s : zstr) : zstr :=
  if s.is_long = false then s
  else if s.l_len ≤ 23 then
    { s with is_long := false,
             s_buf := (memWrite s.s_buf 0
                        ((s.l_ptr.take s.l_len ++ [0]).take (s.l_len % 256 + 1))).take 23,
             s_len := s.l_len % 256 }
  else if s.l_len < s.l_cap then
    if ok then { s with l_ptr := s.l_ptr.take (s.l_len + 1), l_cap := s.l_len } else s
  else s

/-- zstr_from_len: heap path for `len ≥ 23` (reserve, memcpy, terminator,
set length; on allocation failure the untouched empty string is returned),
inline path otherwise (memcpy into the inline buffer, terminator, uint8
length). -/
def zstr_from_len (ok : Bool) (b : List Nat) : zstr :=
  if 23 ≤ b.length then
    match zstr_reserve ok zstr_init b.length with
    | (s1, false) => s1
    | (s1, true) =>
      { s1 with l_ptr := (memWrite s1.l_ptr 0 b).set b.length 0, l_len := b.length }
  else
    { zstr_init with s_buf := (memWrite zstr_init.s_buf 0 b).set b.length 0,
                     s_len := b.length % 256 }

/-- zstr_own: adopt a malloc'd buffer (`ptr_contents` are the bytes of that
allocation).  When `cap ≤ 23` the source copies `len` bytes into the inline
buffer, writes `buf[len] = 0` (an out-of-bounds store onto the `s_len` field
when `len = 23`, which the following store overwrites — modeled by the
`take 23`), stores `(uint8_t)len`, and frees the buffer; otherwise the
pointer, length and capacity are adopted as the long arm. -/
def zstr_own (ptr_contents : List Nat) (len cap : Nat) : zstr :=
  if cap ≤ 23 then
    { zstr_init with
        s_buf := ((memWrite zstr_init.s_buf 0 (ptr_contents.take len)).set len 0).take 23,
        s_len := len % 256 }
  else
    { zstr_init with is_long := true, l_ptr := ptr_contents, l_len := len, l_cap := cap }

/-- Second half of zstr_push_char, after the capacity check: write the byte
and a fresh terminator through `zstr_data`, then bump the active length
(uint8 increment on the inline arm). -/
def zstr_push_write (s : zstr) (len : Nat) (c : Nat) : zstr × Bool :=
  if s.is_long then
    ({ s with l_ptr := (s.l_ptr.set len c).set (len + 1) 0, l_len := s.l_len + 1 }, true)
  else
    ({ s with s_buf := (s.s_buf.set len c).set (len + 1) 0,
              s_len := (s.s_len + 1) % 256 }, true)

/-- zstr_push_char: grow by one Z_GROWTH_FACTOR step when
`len + 1 >= cap` (cap is `l_cap` when long, 23 when inline), then append. -/
def zstr_push_char (ok : Bool) (s : zstr) (c : Nat) : zstr × Bool :=
  if (if s.is_long then s.l_cap else 23) ≤ zstr_len s + 1 then
    match zstr_reserve ok s
        (if (if s.is_long then s.l_cap else 23) = 0 then 32
         else (if s.is_long then s.l_cap else 23) * 2) with
    | (_, false) => (s, false)
    | (s1, true) => zstr_push_write s1 (zstr_len s) c
  else zstr_push_write s (zstr_len s) c

/-- zstr_pop_char: return 0 on an empty string, else remove the last byte
(overwriting it with a terminator) and return it. -/
def zstr_pop_char (s : zstr) : zstr × Nat :=
  if zstr_len s = 0 then (s, 0)
  else if s.is_long then
    ({ s with l_ptr := s.l_ptr.set (s.l_len - 1) 0, l_len := s.l_len - 1 },
     s.l_ptr.getD (s.l_len - 1) 0)
  else
    ({ s with s_buf := s.s_buf.set (s.s_len - 1) 0, s_len := s.s_len - 1 },
     s.s_buf.getD (s.s_len - 1) 0)

/-- The `while (new_cap <= req_cap) new_cap = Z_GROWTH_FACTOR(new_cap);`
loop of zstr_cat_len (Z_GROWTH_FACTOR(c) = c == 0 ? 32 : c * 2). -/
def growLoop (cap req : Nat) : Nat :=
  if cap ≤ req then growLoop (if cap = 0 then 32 else cap * 2) req else cap
termination_by req + 1 - cap
decreasing_by
  rename_i h
  split <;> omega

/-- Second half of zstr_cat_len, after the capacity check: memcpy the source
bytes after the current content, write the terminator, bump the length
(uint8 cast of `src_len` on the inline arm). -/
def zstr_cat_write (s : zstr) (cur : Nat) (src : List Nat) : zstr × Bool :=
  if s.is_long then
    ({ s with l_ptr := (memWrite s.l_ptr cur src).set (cur + src.length) 0,
              l_len := s.l_len + src.length }, true)
  else
    ({ s with s_buf := (memWrite s.s_buf cur src).set (cur + src.length) 0,
              s_len := (s.s_len + src.length % 256) % 256 }, true)

/-- zstr_cat_len: when `cur_len + src_len >= cap`, grow geometrically from
the current capacity (ZSTR_SSO_CAP when inline; the dead `if (new_cap == 0)
new_cap = ZSTR_SSO_CAP;` guard is kept) until the requirement is exceeded,
then copy. -/
def zstr_cat_len (ok : Bool) (s : zstr) (src : List Nat) : zstr × Bool :=
  if (if s.is_long then s.l_cap else 23) ≤ zstr_len s + src.length then
    match zstr_reserve ok s
        (growLoop (if (if s.is_long then s.l_cap else 23) = 0 then 23
                   else (if s.is_long then s.l_cap else 23))
                  (zstr_len s + src.length)) with
    | (_, false) => (s, false)
    | (s1, true) => zstr_cat_write s1 (zstr_len s) src
  else zstr_cat_write s (zstr_len s) src

/-- Model of `strstr(hay, needle)` on byte lists: the first index where
`needle` occurs in `hay` (none if absent; index 0 for an empty needle,
matching strstr). -/
def findSub (hay nd : List Nat) : Option Nat :=
  (List.range (hay.length + 1)).find? (fun i => nd.isPrefixOf (hay.drop i))

/-- The occurrence-counting loop of zstr_replace
(`while ((scan = strstr(scan, target))) { count++; scan += target_len; }`),
with an explicit fuel bounding the iteration count; every iteration consumes
at least `target_len ≥ 1` bytes of the haystack, so `hay.length + 1` fuel is
always enough. -/
def countOccF : Nat → List Nat → List Nat → Nat
  | 0, _, _ => 0
  | fuel + 1, hay, nd =>
    match findSub hay nd with
    | none => 0
    | some i => countOccF fuel (hay.drop (i + nd.length)) nd + 1

/-- Number of non-overlapping, left-to-right occurrences of `nd` in `hay`. -/
def countOcc (hay nd : List Nat) : Nat := countOccF (hay.length + 1) hay nd

/-- The rewrite loop of zstr_replace: copy each inter-match segment followed
by the replacement into `dest` (a buffer, written through a moving cursor
`pos`), then `strcpy` the tail plus its terminator.  Returns the final buffer
and cursor.  Fuel as in `countOccF`. -/
def rewriteF : Nat → List Nat → Nat → List Nat → List Nat → List Nat → List Nat × Nat
  | 0, dest, pos, _, _, _ => (dest, pos)
  | fuel + 1, dest, pos, src, nd, rep =>
    match findSub src nd with
    | none => (memWrite dest pos (src ++ [0]), pos + src.length)
    | some i =>
      rewriteF fuel (memWrite (memWrite dest pos (src.take i)) (pos + i) rep)
        (pos + i + rep.length) (src.drop (i + nd.length)) nd rep

/-- Reference function for the replace claim, following the spec's words
("replaces every non-overlapping occurrence of target"): rewrite the
occurrences left to right.  Fuel-driven like the loops it is compared to. -/
def replaceAllF : Nat → List Nat → List Nat → List Nat → List Nat
  | 0, src, _, _ => src
  | fuel + 1, src, nd, rep =>
    match findSub src nd with
    | none => src
    | some i => src.take i ++ rep ++ replaceAllF fuel (src.drop (i + nd.length)) nd rep

/-- Modelled from the spec: the result of replacing every non-overlapping
occurrence of `nd` in `src` by `rep`, scanning left to right. -/
def spec_replace_all (src nd rep : List Nat) : List Nat :=
  replaceAllF (src.length + 1) src nd rep

/-- zstr_replace: reject an empty target; return unchanged on no occurrence;
otherwise count occurrences over the C-string content, compute the new
length in size_t arithmetic (`old_len + count * (repl_len - target_len)`
with the subtraction wrapping mod 2^64), reserve a fresh zstr of that
capacity (failure leaves the original untouched), run the rewrite loop into
its buffer, store the new length (uint8 cast on the inline arm), and replace
the old value. -/
def zstr_replace (ok : Bool) (s : zstr) (target rep : List Nat) : zstr × Bool :=
  if target = [] then (s, false)
  else
    match findSub (zstr_cstr_bytes s) target with
    | none => (s, true)
    | some _ =>
      match zstr_reserve ok zstr_init
          ((zstr_len s +
            countOcc (zstr_cstr_bytes s) target *
              ((rep.length + (2 ^ 64 - target.length % 2 ^ 64)) % 2 ^ 64) % 2 ^ 64)
           % 2 ^ 64) with
      | (_, false) => (s, false)
      | (res0, true) =>
        if res0.is_long then
          ({ res0 with
              l_ptr := (rewriteF ((zstr_cstr_bytes s).length + 1) res0.l_ptr 0
                          (zstr_cstr_bytes s) target rep).1,
              l_len := (zstr_len s +
                countOcc (zstr_cstr_bytes s) target *
                  ((rep.length + (2 ^ 64 - target.length % 2 ^ 64)) % 2 ^ 64) % 2 ^ 64)
                % 2 ^ 64 }, true)
        else
          ({ res0 with
              s_buf := (rewriteF ((zstr_cstr_bytes s).length + 1) res0.s_buf 0
                          (zstr_cstr_bytes s) target rep).1,
              s_len := ((zstr_len s +
                countOcc (zstr_cstr_bytes s) target *
                  ((rep.length + (2 ^ 64 - target.length % 2 ^ 64)) % 2 ^ 64) % 2 ^ 64)
                % 2 ^ 64) % 256 }, true)

/-- The continuation-byte loop of zstr_next_rune: check the `10xxxxxx`
pattern of each byte and accumulate six payload bits per byte; `none` models
the early `return ZSTR_UTF8_INVALID`. -/
def zstr_rune_conts : List Nat → Nat → Option Nat
  | [], r => some r
  | b :: bs, r =>
    if b &&& 0xC0 ≠ 0x80 then none
    else zstr_rune_conts bs ((r <<< 6) ||| (b &&& 0x3F))

/-- Tail of zstr_next_rune for an `n`-byte lead whose payload bits are `r`:
run the continuation loop over bytes 1..n-1 (reads past the end of the list
yield 0, i.e. the terminator, which fails the pattern check exactly as in
the source); on failure return (0xFFFD, advance 1), else (rune, advance n). -/
def zstr_rune_finish (l : List Nat) (r n : Nat) : Nat × Nat :=
  match zstr_rune_conts ((List.range (n - 1)).map (fun i => l.getD (i + 1) 0)) r with
  | none => (0xFFFD, 1)
  | some rune => (rune, n)

/-- zstr_next_rune on the byte list starting at the cursor: returns the
decoded scalar and the number of bytes the cursor advances (0 on the
terminator, mirroring the source, which does not advance there). -/
def zstr_next_rune (l : List Nat) : Nat × Nat :=
  if l.getD 0 0 = 0 then (0, 0)
  else if l.getD 0 0 < 0x80 then (l.getD 0 0, 1)
  else if l.getD 0 0 &&& 0xE0 = 0xC0 then zstr_rune_finish l (l.getD 0 0 &&& 0x1F) 2
  else if l.getD 0 0 &&& 0xF0 = 0xE0 then zstr_rune_finish l (l.getD 0 0 &&& 0x0F) 3
  else if l.getD 0 0 &&& 0xF8 = 0xF0 then zstr_rune_finish l (l.getD 0 0 &&& 0x07) 4
  else (0xFFFD, 1)

/-- The `while (*ptr) { zstr_next_rune(&ptr); count++; }` loop of
zstr_count_runes, on the byte list starting at the cursor. -/
def zstr_count_runes_list (l : List Nat) : Nat :=
  if h : l.getD 0 0 = 0 then 0
  else zstr_count_runes_list (l.drop (zstr_next_rune l).2) + 1
termination_by l.length
decreasing_by
  have hne : l ≠ [] := by
    intro hl
    rw [hl] at h
    exact h rfl
  have hfin : ∀ r n, 1 ≤ n → 1 ≤ (zstr_rune_finish l r n).2 := by
    intro r n hn
    unfold zstr_rune_finish
    rcases zstr_rune_conts ((List.range (n - 1)).map (fun i => l.getD (i + 1) 0)) r
        with _ | rr
    · simp
    · simpa using hn
  have hadv : 1 ≤ (zstr_next_rune l).2 := by
    unfold zstr_next_rune
    split_ifs <;> first
      | exact Nat.le_refl 1
      | exact hfin _ 2 (by omega)
      | exact hfin _ 3 (by omega)
      | exact hfin _ 4 (by omega)
  have hlen : 0 < l.length := List.length_pos.mpr hne
  simp only [List.length_drop]
  omega

/-- zstr_count_runes on a zstr value: count decode steps over its buffer. -/
def zstr_count_runes (s : zstr) : Nat := zstr_count_runes_list (zstr_buf s)

/-- zstr_is_valid_utf8's scanning loop, written by structural recursion on
the byte list (the list models the buffer including its NUL terminator, so
the loop's reads never pass a NUL in the list: a NUL fails every
continuation-byte check, exactly as in the source; reads past the end of
the list stand for reads of unwritten memory and are modeled as byte 0,
which also fails those checks).  Branch structure, check order and all
bounds follow the source: the 3-byte arm checks the third byte's
continuation pattern before the overlong / surrogate tests on the second
byte, the 4-byte arm checks `b1 > 0xF4` before reading further, and any
other lead byte fails. -/
def zstr_valid_loop : List Nat → Bool
  | [] => true
  | c :: rest =>
    if c = 0 then true
    else if c < 0x80 then zstr_valid_loop rest
    else if c &&& 0xE0 = 0xC0 then
      if c < 0xC2 then false
      else
        match rest with
        | [] => false
        | b2 :: rest2 => if b2 &&& 0xC0 ≠ 0x80 then false else zstr_valid_loop rest2
    else if c &&& 0xF0 = 0xE0 then
      match rest with
      | b2 :: b3 :: rest3 =>
        if b3 &&& 0xC0 ≠ 0x80 then false
        else if c = 0xE0 ∧ b2 < 0xA0 then false
        else if c = 0xED ∧ 0xA0 ≤ b2 then false
        else if b2 &&& 0xC0 ≠ 0x80 then false
        else zstr_valid_loop rest3
      | _ => false
    else if c &&& 0xF8 = 0xF0 then
      if 0xF4 < c then false
      else
        match rest with
        | b2 :: rest2 =>
          if c = 0xF0 ∧ b2 < 0x90 then false
          else if c = 0xF4 ∧ 0x90 ≤ b2 then false
          else if b2 &&& 0xC0 ≠ 0x80 then false
          else
            match rest2 with
            | b3 :: rest3 =>
              if b3 &&& 0xC0 ≠ 0x80 then false
              else
                match rest3 with
                | b4 :: rest4 => if b4 &&& 0xC0 ≠ 0x80 then false else zstr_valid_loop rest4
                | [] => false
            | [] => false
        | [] => false
    else false

/-- zstr_is_valid_utf8 on a zstr value: run the strict scanner over its
buffer (the scan stops at the terminator). -/
def zstr_is_valid_utf8 (s : zstr) : Bool := zstr_valid_loop (zstr_buf s)

/-- Model of `zstr_view`: `buf` is the underlying allocation, `data = buf +
off`, and `len` is the view length.  Keeping the whole allocation around
lets the model express out-of-range view lengths, which one of the claims
is about. -/
structure zstr_view where
  buf : List Nat
  off : Nat
  len : Nat
deriving DecidableEq, Repr

/-- zstr_view_from on a C string: the view of all bytes before the NUL. -/
def zstr_view_from (cs : List Nat) : zstr_view := ⟨cs, 0, cs.length⟩

/-- zstr_as_view: the whole content of a zstr. -/
def zstr_as_view (s : zstr) : zstr_view := ⟨zstr_buf s, 0, zstr_len s⟩

/-- The bytes a view denotes (as_bytes): `len` bytes starting at `data`. -/
def zstr_view_bytes (v : zstr_view) : List Nat := (v.buf.drop v.off).take v.len

/-- zstr_sub: empty view (of the literal empty string) when `start ≥ len`;
otherwise clamp when `start + len` — computed in size_t, hence the mod —
exceeds the view length, and slice. -/
def zstr_sub (v : zstr_view) (start len : Nat) : zstr_view :=
  if v.len ≤ start then ⟨[0], 0, 0⟩
  else if v.len < (start + len) % (2 ^ 64) then ⟨v.buf, v.off + start, v.len - start⟩
  else ⟨v.buf, v.off + start, len⟩

/-- Model of `zstr_split_iter`. -/
structure zstr_split_iter where
  source : zstr_view
  delim : zstr_view
  current_pos : Nat
  finished : Bool
deriving DecidableEq, Repr

/-- zstr_split_init: wrap the delimiter C-string in a view, cursor at 0. -/
def zstr_split_init (src : zstr_view) (delim : List Nat) : zstr_split_iter :=
  ⟨src, zstr_view_from delim, 0, false⟩

/-- Bytes `memcmp(v.data + i, ..., n)` touches: `n` bytes of `v` from `i`. -/
def view_read (v : zstr_view) (i n : Nat) : List Nat := (v.buf.drop (v.off + i)).take n

/-- zstr_split_next.  Result `some (some part, it)` models `return true`
with `*out_part = part`, `some (none, it)` models `return false` (out_part
untouched), and `none` marks the undefined case: when `delim.len >
remaining`, the source's loop bound `remaining - it->delim.len` wraps around
in size_t and the loop reads far past the buffer.  Otherwise the loop scans
`i = 0 .. remaining - delim.len` for the first memcmp match, yields the
final remainder (marking the iterator finished) when there is none, and
yields the segment before the match (advancing the cursor past the
delimiter) when there is one. -/
def zstr_split_next (it : zstr_split_iter) : Option (Option zstr_view × zstr_split_iter) :=
  if it.finished then some (none, it)
  else
    if it.delim.len ≤ it.source.len - it.current_pos then
      let remaining := it.source.len - it.current_pos
      let found_at := ((List.range (remaining - it.delim.len + 1)).find? (fun i =>
          view_read it.source (it.current_pos + i) it.delim.len ==
          view_read it.delim 0 it.delim.len)).getD remaining
      if found_at = remaining then
        some (some ⟨it.source.buf, it.source.off + it.current_pos, remaining⟩,
              { it with finished := true })
      else
        some (some ⟨it.source.buf, it.source.off + it.current_pos, found_at⟩,
              { it with current_pos := it.current_pos + found_at + it.delim.len })
    else none

/-- Test harness: drive the split iterator, collecting the yielded segments
(as byte lists); `fuel` bounds the number of advance calls. -/
def split_collect : Nat → zstr_split_iter → List (List Nat)
  | 0, _ => []
  | n + 1, it =>
    match zstr_split_next it with
    | some (some v, it2) => zstr_view_bytes v :: split_collect n it2
    | _ => []

/-- A lead byte the decoder treats as malformed: not ASCII and matching none
of the 2-, 3- or 4-byte lead patterns. -/
def utf8_lead_malformed (c : Nat) : Bool :=
  decide (0x80 ≤ c) && !(c &&& 0xE0 == 0xC0) && !(c &&& 0xF0 == 0xE0) && !(c &&& 0xF8 == 0xF0)

/-- Encoded length the decoder derives from a lead byte (1 for ASCII and for
malformed leads, where it is the recovery step). -/
def utf8_lead_len (c : Nat) : Nat :=
  if c &&& 0xE0 = 0xC0 then 2
  else if c &&& 0xF0 = 0xE0 then 3
  else if c &&& 0xF8 = 0xF0 then 4
  else 1

/-- The continuation bytes the decoder will examine for the sequence
starting at the head of `l` (reads past the end give 0). -/
def utf8_cont_bytes (l : List Nat) : List Nat :=
  (List.range (utf8_lead_len (l.getD 0 0) - 1)).map (fun i => l.getD (i + 1) 0)

/-- Whether some continuation byte the decoder examines lacks the 10xxxxxx
pattern. -/
def utf8_bad_cont (l : List Nat) : Bool :=
  (utf8_cont_bytes l).any (fun b => !(b &&& 0xC0 == 0x80))

/-- Values reachable through construction (`zstr_init`, `zstr_from_len`) and
the append operations (`zstr_push_char`, `zstr_cat_len`), with any pattern
of allocator successes and failures. -/
inductive zstr_reach : zstr → Prop where
  | init : zstr_reach zstr_init
  | from_len (ok : Bool) (b : List Nat) : zstr_reach (zstr_from_len ok b)
  | push (ok : Bool) (c : Nat) {s : zstr} :
      zstr_reach s → zstr_reach (zstr_push_char ok s c).1
  | cat (ok : Bool) (src : List Nat) {s : zstr} :
      zstr_reach s → zstr_reach (zstr_cat_len ok s src).1

/-! Helper lemmas shared by the claim proofs. -/

theorem list_take_set_self {α : Type} (l : List α) (n : Nat) (a : α) :
    (l.set n a).take n = l.take n := by
  induction l generalizing n with
  | nil => simp
  | cons x xs ih =>
    cases n with
    | zero => simp
    | succ m => simpa using ih m

theorem list_getD_set_ne (l : List Nat) (i j a b : Nat) (h : i ≠ j) :
    (l.set i a).getD j b = l.getD j b := by
  rw [List.getD_eq_getElem?_getD, List.getD_eq_getElem?_getD, List.getElem?_set_ne h]

/-- C1: the claimed representation invariant — in particular `length < 23`
whenever the value is inline — is violated by the code on reachable values:
`zstr_from_len` of 23 bytes yields a well-formed heap value of length 23
(`length ≤ capacity` holds there), but `zstr_shrink_to_fit` then demotes it
to the inline form with length 23, and `zstr_own` of a 23-byte, capacity-23
buffer produces the same invariant-breaking inline state directly; in both
states the stored length equals the full 23-byte inline buffer size, so no
in-bounds byte slot remains for the 0x00 sentinel. -/
theorem C1_inline_length_invariant_violated :
    (zstr_from_len true (List.replicate 23 97)).is_long = true ∧
    zstr_len (zstr_from_len true (List.replicate 23 97)) ≤
      (zstr_from_len true (List.replicate 23 97)).l_cap ∧
    (zstr_shrink_to_fit true (zstr_from_len true (List.replicate 23 97))).is_long = false ∧
    ¬ zstr_len (zstr_shrink_to_fit true (zstr_from_len true (List.replicate 23 97))) < 23 ∧
    (zstr_own (List.replicate 23 98) 23 23).is_long = false ∧
    ¬ zstr_len (zstr_own (List.replicate 23 98) 23 23) < 23 := by
  decide

/-- C3: the claim says shrink_to_fit demotes exactly when the value is long
with `length ≤ C − 1 = 22` and otherwise (length < capacity) reallocates to
`length + 1` bytes.  On a heap value of length 23 — which satisfies neither
demotion condition (23 > 22) nor the strict `length < capacity` — the code
nevertheless demotes to the inline form (its test is `length ≤ 23`),
keeping length 23 and the 23 content bytes but leaving the inline
representation with no room for the terminator. -/
theorem C3_shrink_demotes_at_sso_cap :
    ¬ zstr_len (zstr_from_len true (List.replicate 23 97)) ≤ 22 ∧
    zstr_len (zstr_from_len true (List.replicate 23 97)) <
      (zstr_from_len true (List.replicate 23 97)).l_cap + 1 ∧
    (zstr_shrink_to_fit true (zstr_from_len true (List.replicate 23 97))).is_long = false ∧
    zstr_len (zstr_shrink_to_fit true (zstr_from_len true (List.replicate 23 97))) = 23 ∧
    zstr_content (zstr_shrink_to_fit true (zstr_from_len true (List.replicate 23 97))) =
      List.replicate 23 97 := by
  decide

/-- C5 counterexample: the claim promises the result length of `sub` never
exceeds `v.len − start` for every value of `len`, but with `start = 5` and
`len = 2^64 − 3` on a view of length 10 the size_t sum `start + len` wraps
to 2, the clamp is skipped, and the returned view has length 2^64 − 3,
vastly exceeding `v.len − start = 5`. -/
theorem C5_sub_overflow_counterexample :
    (zstr_sub ⟨List.replicate 10 0, 0, 10⟩ 5 (2 ^ 64 - 3)).len = 2 ^ 64 - 3 ∧
    ¬ (zstr_sub ⟨List.replicate 10 0, 0, 10⟩ 5 (2 ^ 64 - 3)).len ≤ 10 - 5 := by
  decide

/-- C5 (amended): sub returns the empty view when `start` is at or beyond
`v.len`; otherwise, provided `start + len` does not overflow size_t
(`start + len < 2^64`), it returns the view of v's bytes beginning at
`start` with length `min len (v.len − start)`, which never exceeds
`v.len − start`. -/
theorem C5_sub_clamp_amended (v : zstr_view) (start len : Nat) :
    (v.len ≤ start → zstr_sub v start len = ⟨[0], 0, 0⟩) ∧
    (start < v.len → start + len < 2 ^ 64 →
      zstr_sub v start len = ⟨v.buf, v.off + start, min len (v.len - start)⟩ ∧
      (zstr_sub v start len).len ≤ v.len - start) := by
  constructor
  · intro h
    simp [zstr_sub, h]
  · intro h1 h2
    have he : zstr_sub v start len = ⟨v.buf, v.off + start, min len (v.len - start)⟩ := by
      unfold zstr_sub
      rw [if_neg (by omega), Nat.mod_eq_of_lt h2]
      by_cases h3 : v.len < start + len
      · rw [if_pos h3]
        have hm : min len (v.len - start) = v.len - start := by omega
        rw [hm]
      · rw [if_neg h3]
        have hm : min len (v.len - start) = len := by omega
        rw [hm]
    refine ⟨he, ?_⟩
    rw [he]
    exact Nat.min_le_right len (v.len - start)

/-- C5 witness: the amended theorem applied at a concrete in-range call. -/
theorem C5_sub_witness :
    zstr_sub ⟨[1, 2, 3], 0, 3⟩ 1 5 = ⟨[1, 2, 3], 0 + 1, min 5 (3 - 1)⟩ ∧
    (zstr_sub ⟨[1, 2, 3], 0, 3⟩ 1 5).len ≤ 3 - 1 :=
  (C5_sub_clamp_amended ⟨[1, 2, 3], 0, 3⟩ 1 5).2 (by decide) (by norm_num)

/-- C6: splitting the view of "a,,b" (bytes 97,44,44,98) on "," yields the
segments "a", "", "b" in order; splitting "abc" on "," yields the single
segment "abc"; and once an iterator is finished every further
zstr_split_next call reports false (modeled as yielding nothing) and leaves
the iterator unchanged. -/
theorem C6_split_sequence :
    split_collect 8 (zstr_split_init (zstr_view_from [97, 44, 44, 98]) [44]) =
      [[97], [], [98]] ∧
    split_collect 8 (zstr_split_init (zstr_view_from [97, 98, 99]) [44]) = [[97, 98, 99]] ∧
    ∀ it : zstr_split_iter, it.finished = true → zstr_split_next it = some (none, it) := by
  refine ⟨by decide, by decide, ?_⟩
  intro it h
  simp [zstr_split_next, h]

/-- C6 witness: a finished iterator yields nothing further. -/
theorem C6_split_witness :
    zstr_split_next ⟨zstr_view_from [97], zstr_view_from [44], 0, true⟩ =
      some (none, ⟨zstr_view_from [97], zstr_view_from [44], 0, true⟩) :=
  C6_split_sequence.2.2 ⟨zstr_view_from [97], zstr_view_from [44], 0, true⟩ rfl

/-- C8: the strict validator accepts "hello", "héllo" (2-byte sequence),
"日本語" (3-byte sequences) and a single 4-byte emoji sequence, and rejects
a lone continuation byte 0x80, the overlong pair 0xC0 0xAF, and the
surrogate encoding 0xED 0xA0 0x80. -/
theorem C8_utf8_validator_vectors :
    zstr_is_valid_utf8 (zstr_from_len true [104, 101, 108, 108, 111]) = true ∧
    zstr_is_valid_utf8 (zstr_from_len true [104, 195, 169, 108, 108, 111]) = true ∧
    zstr_is_valid_utf8 (zstr_from_len true
      [230, 151, 165, 230, 156, 172, 232, 170, 158]) = true ∧
    zstr_is_valid_utf8 (zstr_from_len true [240, 159, 152, 128]) = true ∧
    zstr_is_valid_utf8 (zstr_from_len true [128]) = false ∧
    zstr_is_valid_utf8 (zstr_from_len true [192, 175]) = false ∧
    zstr_is_valid_utf8 (zstr_from_len true [237, 160, 128]) = false := by
  decide

/-- C10: clear sets the length to 0 and writes a terminator byte at offset 0
of the active buffer, and changes nothing else: the discriminator and the
heap capacity are preserved, and every buffer byte at offset 1 and above is
untouched (no free, demotion or reallocation takes place). -/
theorem C10_clear_frame (s : zstr) :
    (zstr_clear s).is_long = s.is_long ∧
    (zstr_clear s).l_cap = s.l_cap ∧
    zstr_len (zstr_clear s) = 0 ∧
    zstr_buf (zstr_clear s) = (zstr_buf s).set 0 0 ∧
    (∀ i, 1 ≤ i → (zstr_buf (zstr_clear s)).getD i 0 = (zstr_buf s).getD i 0) := by
  have hg : ∀ (l : List Nat) (i : Nat), 1 ≤ i → (l.set 0 0)[i]?.getD 0 = l[i]?.getD 0 := by
    intro l i hi
    rw [List.getElem?_set_ne (by omega)]
  cases hl : s.is_long <;>
    (simp [zstr_clear, zstr_len, zstr_buf, hl]; exact fun i hi => hg _ i hi)

/-- C10 witness: the frame theorem applied at a concrete string and offset. -/
theorem C10_clear_witness :
    (zstr_buf (zstr_clear (zstr_from_len true [97, 98]))).getD 1 0 =
      (zstr_buf (zstr_from_len true [97, 98])).getD 1 0 :=
  (C10_clear_frame (zstr_from_len true [97, 98])).2.2.2.2 1 (by decide)

/-- C9: constructing a string from any byte sequence `b` (including ones
with embedded NUL bytes) and reading it back as bytes through as_view
returns exactly `b`, allocation succeeding. -/
theorem C9_from_bytes_roundtrip (b : List Nat) :
    zstr_view_bytes (zstr_as_view (zstr_from_len true b)) = b := by
  by_cases h : 23 ≤ b.length
  · have hres : zstr_reserve true zstr_init b.length =
        (⟨true, List.replicate 23 0, 0, List.replicate (b.length + 1) 0, 0, b.length⟩,
         true) := by
      unfold zstr_reserve zstr_init
      rw [if_neg (by omega)]
      simp [List.replicate_succ]
    have hmw : memWrite (List.replicate (b.length + 1) 0) 0 b = b ++ [0] := by
      unfold memWrite
      rw [List.take_zero, Nat.zero_add, List.drop_replicate, List.nil_append]
      have h1 : b.length + 1 - b.length = 1 := by omega
      rw [h1, List.replicate_one]
    unfold zstr_from_len
    rw [if_pos h, hres]
    simp only [zstr_view_bytes, zstr_as_view, zstr_buf, zstr_len, List.drop_zero,
      eq_self_iff_true, if_true]
    rw [hmw, list_take_set_self, List.take_left' rfl]
  · have hmw : memWrite (List.replicate 23 0) 0 b = b ++ List.replicate (23 - b.length) 0 := by
      unfold memWrite
      rw [List.take_zero, Nat.zero_add, List.drop_replicate, List.nil_append]
    unfold zstr_from_len
    rw [if_neg h]
    simp only [zstr_view_bytes, zstr_as_view, zstr_buf, zstr_len, zstr_init, List.drop_zero,
      Bool.false_eq_true, if_false]
    rw [hmw, Nat.mod_eq_of_lt (by omega), list_take_set_self, List.take_left' rfl]

theorem rune_conts_none_iff (bs : List Nat) (r : Nat) :
    zstr_rune_conts bs r = none ↔ bs.any (fun b => !(b &&& 0xC0 == 0x80)) = true := by
  induction bs generalizing r with
  | nil => simp [zstr_rune_conts]
  | cons b bs ih =>
    by_cases hb : b &&& 0xC0 = 0x80
    · simp [zstr_rune_conts, hb, ih]
    · simp [zstr_rune_conts, hb]

theorem rune_finish_snd_pos (l : List Nat) (r n : Nat) (hn : 1 ≤ n) :
    1 ≤ (zstr_rune_finish l r n).2 := by
  unfold zstr_rune_finish
  rcases zstr_rune_conts ((List.range (n - 1)).map (fun i => l.getD (i + 1) 0)) r with _ | rr
  · simp
  · simpa using hn

/-- C7: at any decode position whose leading byte is not NUL, a malformed
leading byte or a missing 10xxxxxx pattern on a required continuation byte
makes zstr_next_rune return the replacement codepoint 0xFFFD and advance by
exactly one byte; the decoder advances by at least one byte on every such
position; and zstr_count_runes — a total function of the buffer, so it
terminates on every NUL-terminated string — counts exactly one rune per
decode step, stopping at the terminator. -/
theorem C7_decoder_progress_and_count :
    (∀ l : List Nat, l.getD 0 0 ≠ 0 →
      ((utf8_lead_malformed (l.getD 0 0) = true ∨ utf8_bad_cont l = true) →
        zstr_next_rune l = (0xFFFD, 1)) ∧
      1 ≤ (zstr_next_rune l).2) ∧
    (∀ l : List Nat, zstr_count_runes_list l =
      if l.getD 0 0 = 0 then 0
      else zstr_count_runes_list (l.drop (zstr_next_rune l).2) + 1) ∧
    (∀ s : zstr, zstr_count_runes s = zstr_count_runes_list (zstr_buf s)) := by
  refine ⟨?_, ?_, fun s => rfl⟩
  · intro l h0
    constructor
    · intro hbad
      unfold zstr_next_rune
      rw [if_neg h0]
      by_cases hc2 : l.getD 0 0 < 0x80
      · exfalso
        rcases hbad with hm | hb
        · unfold utf8_lead_malformed at hm
          simp only [Bool.and_eq_true, decide_eq_true_eq] at hm
          obtain ⟨⟨⟨h1, _⟩, _⟩, _⟩ := hm
          omega
        · have hA : l.getD 0 0 &&& 0xE0 ≠ 0xC0 := by
            have := @Nat.and_le_left (l.getD 0 0) 0xE0
            omega
          have hB : l.getD 0 0 &&& 0xF0 ≠ 0xE0 := by
            have := @Nat.and_le_left (l.getD 0 0) 0xF0
            omega
          have hC : l.getD 0 0 &&& 0xF8 ≠ 0xF0 := by
            have := @Nat.and_le_left (l.getD 0 0) 0xF8
            omega
          have hlen : utf8_lead_len (l.getD 0 0) = 1 := by
            unfold utf8_lead_len
            rw [if_neg hA, if_neg hB, if_neg hC]
          unfold utf8_bad_cont utf8_cont_bytes at hb
          rw [hlen] at hb
          simp at hb
      · rw [if_neg hc2]
        by_cases hc3 : l.getD 0 0 &&& 0xE0 = 0xC0
        · rw [if_pos hc3]
          rcases hbad with hm | hb
          · exfalso
            unfold utf8_lead_malformed at hm
            simp only [Bool.and_eq_true, decide_eq_true_eq, Bool.not_eq_true',
              beq_eq_false_iff_ne, ne_eq] at hm
            exact hm.1.1.2 hc3
          · unfold zstr_rune_finish
            have hlen : utf8_lead_len (l.getD 0 0) = 2 := by
              unfold utf8_lead_len
              rw [if_pos hc3]
            unfold utf8_bad_cont utf8_cont_bytes at hb
            rw [hlen] at hb
            have hnone : zstr_rune_conts
                ((List.range (2 - 1)).map fun i => l.getD (i + 1) 0)
                (l.getD 0 0 &&& 0x1F) = none := (rune_conts_none_iff _ _).mpr hb
            rw [hnone]
        · rw [if_neg hc3]
          by_cases hc4 : l.getD 0 0 &&& 0xF0 = 0xE0
          · rw [if_pos hc4]
            rcases hbad with hm | hb
            · exfalso
              unfold utf8_lead_malformed at hm
              simp only [Bool.and_eq_true, decide_eq_true_eq, Bool.not_eq_true',
                beq_eq_false_iff_ne, ne_eq] at hm
              exact hm.1.2 hc4
            · unfold zstr_rune_finish
              have hlen : utf8_lead_len (l.getD 0 0) = 3 := by
                unfold utf8_lead_len
                rw [if_neg hc3, if_pos hc4]
              unfold utf8_bad_cont utf8_cont_bytes at hb
              rw [hlen] at hb
              have hnone : zstr_rune_conts
                  ((List.range (3 - 1)).map fun i => l.getD (i + 1) 0)
                  (l.getD 0 0 &&& 0x0F) = none := (rune_conts_none_iff _ _).mpr hb
              rw [hnone]
          · rw [if_neg hc4]
            by_cases hc5 : l.getD 0 0 &&& 0xF8 = 0xF0
            · rw [if_pos hc5]
              rcases hbad with hm | hb
              · exfalso
                unfold utf8_lead_malformed at hm
                simp only [Bool.and_eq_true, decide_eq_true_eq, Bool.not_eq_true',
                  beq_eq_false_iff_ne, ne_eq] at hm
                exact hm.2 hc5
              · unfold zstr_rune_finish
                have hlen : utf8_lead_len (l.getD 0 0) = 4 := by
                  unfold utf8_lead_len
                  rw [if_neg hc3, if_neg hc4, if_pos hc5]
                unfold utf8_bad_cont utf8_cont_bytes at hb
                rw [hlen] at hb
                have hnone : zstr_rune_conts
                    ((List.range (4 - 1)).map fun i => l.getD (i + 1) 0)
                    (l.getD 0 0 &&& 0x07) = none := (rune_conts_none_iff _ _).mpr hb
                rw [hnone]
            · rw [if_neg hc5]
    · unfold zstr_next_rune
      split_ifs with hz h1 h2 h3 h4
      · exact absurd hz h0
      · exact Nat.le_refl 1
      · exact rune_finish_snd_pos _ _ 2 (by omega)
      · exact rune_finish_snd_pos _ _ 3 (by omega)
      · exact rune_finish_snd_pos _ _ 4 (by omega)
      · exact Nat.le_refl 1
  · intro l
    by_cases h : l.getD 0 0 = 0
    · rw [if_pos h]
      unfold zstr_count_runes_list
      rw [dif_pos h]
    · rw [if_neg h]
      conv_lhs => unfold zstr_count_runes_list
      rw [dif_neg h]

/-- C7 witness: the malformed-lead case at the concrete input 0x80, via the
theorem above. -/
theorem C7_decoder_witness :
    zstr_next_rune [128] = (0xFFFD, 1) ∧ 1 ≤ (zstr_next_rune [128]).2 :=
  ⟨((C7_decoder_progress_and_count.1 [128] (by decide)).1 (Or.inl (by decide))),
   (C7_decoder_progress_and_count.1 [128] (by decide)).2⟩

theorem growLoop_gt (cap req : Nat) : req < growLoop cap req := by
  induction cap, req using growLoop.induct with
  | case1 cap req h ih =>
    rw [growLoop.eq_def, if_pos h]
    simpa using ih
  | case2 cap req h =>
    rw [growLoop.eq_def, if_neg h]
    omega

theorem zstr_reserve_spec (ok : Bool) (s : zstr) (n : Nat)
    (hn : ¬ n < 23) (hc : ¬ (s.is_long = true ∧ n ≤ s.l_cap)) :
    (ok = false ∧ zstr_reserve ok s n = (s, false)) ∨
    (ok = true ∧ ∃ s1 : zstr, zstr_reserve ok s n = (s1, true) ∧
      s1.is_long = true ∧ s1.l_cap = n ∧ s1.l_len = zstr_len s) := by
  unfold zstr_reserve
  rw [if_neg hn, if_neg hc]
  cases ok
  · left
    simp
  · right
    refine ⟨rfl, ?_⟩
    rw [if_neg (by simp)]
    cases hl : s.is_long
    · rw [if_neg (by simp)]
      exact ⟨_, rfl, by simp, by simp, by simp [zstr_len, hl]⟩
    · rw [if_pos rfl]
      exact ⟨_, rfl, by simp [hl], by simp, by simp [zstr_len, hl]⟩

theorem zstr_push_write_inv_long (s1 : zstr) (len c : Nat) (hA : s1.is_long = true)
    (hgoal : 23 ≤ s1.l_len + 1 ∧ s1.l_len + 1 ≤ s1.l_cap) :
    ((zstr_push_write s1 len c).1.is_long = false →
      zstr_len (zstr_push_write s1 len c).1 < 23) ∧
    ((zstr_push_write s1 len c).1.is_long = true →
      23 ≤ (zstr_push_write s1 len c).1.l_len ∧
      (zstr_push_write s1 len c).1.l_len ≤ (zstr_push_write s1 len c).1.l_cap) := by
  have hfalse : s1.is_long = false → False := by
    rw [hA]
    simp
  unfold zstr_push_write
  rw [if_pos hA]
  exact ⟨fun hx => (hfalse hx).elim, fun _ => hgoal⟩

theorem zstr_push_write_inv_short (s1 : zstr) (len c : Nat) (hA : s1.is_long = false)
    (hgoal : (s1.s_len + 1) % 256 < 23) :
    ((zstr_push_write s1 len c).1.is_long = false →
      zstr_len (zstr_push_write s1 len c).1 < 23) ∧
    ((zstr_push_write s1 len c).1.is_long = true →
      23 ≤ (zstr_push_write s1 len c).1.l_len ∧
      (zstr_push_write s1 len c).1.l_len ≤ (zstr_push_write s1 len c).1.l_cap) := by
  have htrue : s1.is_long = true → False := by
    rw [hA]
    simp
  unfold zstr_push_write
  rw [if_neg (by simp [hA])]
  refine ⟨fun _ => ?_, fun hx => (htrue hx).elim⟩
  show (if s1.is_long = true then s1.l_len else (s1.s_len + 1) % 256) < 23
  rw [if_neg (by simp [hA])]
  exact hgoal

theorem zstr_push_preserves_inv (ok : Bool) (c : Nat) (s : zstr)
    (h1 : s.is_long = false → zstr_len s < 23)
    (h2 : s.is_long = true → 23 ≤ s.l_len ∧ s.l_len ≤ s.l_cap) :
    ((zstr_push_char ok s c).1.is_long = false → zstr_len (zstr_push_char ok s c).1 < 23) ∧
    ((zstr_push_char ok s c).1.is_long = true →
      23 ≤ (zstr_push_char ok s c).1.l_len ∧
      (zstr_push_char ok s c).1.l_len ≤ (zstr_push_char ok s c).1.l_cap) := by
  cases hl : s.is_long with
  | false =>
    have hlen : zstr_len s < 23 := h1 hl
    have hsl : zstr_len s = s.s_len := by simp [zstr_len, hl]
    have htrue : s.is_long = true → False := by
      rw [hl]
      simp
    unfold zstr_push_char
    rw [if_neg (show ¬ s.is_long = true by rw [hl]; simp)]
    rw [if_neg (by omega : ¬ (23 : Nat) = 0)]
    by_cases hcond : (23 : Nat) ≤ zstr_len s + 1
    · rw [if_pos hcond]
      have hn : ¬ 23 * 2 < 23 := by omega
      have hc : ¬ (s.is_long = true ∧ 23 * 2 ≤ s.l_cap) := fun hx => htrue hx.1
      rcases zstr_reserve_spec ok s (23 * 2) hn hc with ⟨hok, heq⟩ | ⟨hok, s1, heq, hA, hB, hC⟩
      · rw [heq]
        exact ⟨fun _ => h1 hl, fun hx => (htrue hx).elim⟩
      · rw [heq]
        exact zstr_push_write_inv_long s1 (zstr_len s) c hA (by rw [hC, hB]; omega)
    · rw [if_neg hcond]
      exact zstr_push_write_inv_short s (zstr_len s) c hl (by omega)
  | true =>
    have hinv := h2 hl
    have hsl : zstr_len s = s.l_len := by simp [zstr_len, hl]
    have hfalse : s.is_long = false → False := by
      rw [hl]
      simp
    unfold zstr_push_char
    rw [if_pos hl]
    rw [if_neg (by omega : ¬ s.l_cap = 0)]
    by_cases hcond : s.l_cap ≤ zstr_len s + 1
    · rw [if_pos hcond]
      have hn : ¬ s.l_cap * 2 < 23 := by omega
      have hc : ¬ (s.is_long = true ∧ s.l_cap * 2 ≤ s.l_cap) := fun hx => by omega
      rcases zstr_reserve_spec ok s (s.l_cap * 2) hn hc
          with ⟨hok, heq⟩ | ⟨hok, s1, heq, hA, hB, hC⟩
      · rw [heq]
        exact ⟨fun hx => (hfalse hx).elim, fun _ => hinv⟩
      · rw [heq]
        exact zstr_push_write_inv_long s1 (zstr_len s) c hA (by rw [hC, hB]; omega)
    · rw [if_neg hcond]
      exact zstr_push_write_inv_long s (zstr_len s) c hl (by omega)

theorem zstr_cat_write_inv_long (s1 : zstr) (cur : Nat) (src : List Nat)
    (hA : s1.is_long = true)
    (hgoal : 23 ≤ s1.l_len + src.length ∧ s1.l_len + src.length ≤ s1.l_cap) :
    ((zstr_cat_write s1 cur src).1.is_long = false →
      zstr_len (zstr_cat_write s1 cur src).1 < 23) ∧
    ((zstr_cat_write s1 cur src).1.is_long = true →
      23 ≤ (zstr_cat_write s1 cur src).1.l_len ∧
      (zstr_cat_write s1 cur src).1.l_len ≤ (zstr_cat_write s1 cur src).1.l_cap) := by
  have hfalse : s1.is_long = false → False := by
    rw [hA]
    simp
  unfold zstr_cat_write
  rw [if_pos hA]
  exact ⟨fun hx => (hfalse hx).elim, fun _ => hgoal⟩

theorem zstr_cat_write_inv_short (s1 : zstr) (cur : Nat) (src : List Nat)
    (hA : s1.is_long = false)
    (hgoal : (s1.s_len + src.length % 256) % 256 < 23) :
    ((zstr_cat_write s1 cur src).1.is_long = false →
      zstr_len (zstr_cat_write s1 cur src).1 < 23) ∧
    ((zstr_cat_write s1 cur src).1.is_long = true →
      23 ≤ (zstr_cat_write s1 cur src).1.l_len ∧
      (zstr_cat_write s1 cur src).1.l_len ≤ (zstr_cat_write s1 cur src).1.l_cap) := by
  have htrue : s1.is_long = true → False := by
    rw [hA]
    simp
  unfold zstr_cat_write
  rw [if_neg (by simp [hA])]
  refine ⟨fun _ => ?_, fun hx => (htrue hx).elim⟩
  show (if s1.is_long = true then s1.l_len else (s1.s_len + src.length % 256) % 256) < 23
  rw [if_neg (by simp [hA])]
  exact hgoal

theorem zstr_cat_preserves_inv (ok : Bool) (src : List Nat) (s : zstr)
    (h1 : s.is_long = false → zstr_len s < 23)
    (h2 : s.is_long = true → 23 ≤ s.l_len ∧ s.l_len ≤ s.l_cap) :
    ((zstr_cat_len ok s src).1.is_long = false →
      zstr_len (zstr_cat_len ok s src).1 < 23) ∧
    ((zstr_cat_len ok s src).1.is_long = true →
      23 ≤ (zstr_cat_len ok s src).1.l_len ∧
      (zstr_cat_len ok s src).1.l_len ≤ (zstr_cat_len ok s src).1.l_cap) := by
  cases hl : s.is_long with
  | false =>
    have hlen : zstr_len s < 23 := h1 hl
    have hsl : zstr_len s = s.s_len := by simp [zstr_len, hl]
    have htrue : s.is_long = true → False := by
      rw [hl]
      simp
    unfold zstr_cat_len
    rw [if_neg (show ¬ s.is_long = true by rw [hl]; simp)]
    rw [if_neg (by omega : ¬ (23 : Nat) = 0)]
    by_cases hcond : (23 : Nat) ≤ zstr_len s + src.length
    · rw [if_pos hcond]
      have hg := growLoop_gt 23 (zstr_len s + src.length)
      have hn : ¬ growLoop 23 (zstr_len s + src.length) < 23 := by omega
      have hc : ¬ (s.is_long = true ∧
          growLoop 23 (zstr_len s + src.length) ≤ s.l_cap) := fun hx => htrue hx.1
      rcases zstr_reserve_spec ok s (growLoop 23 (zstr_len s + src.length)) hn hc
          with ⟨hok, heq⟩ | ⟨hok, s1, heq, hA, hB, hC⟩
      · rw [heq]
        exact ⟨fun _ => h1 hl, fun hx => (htrue hx).elim⟩
      · rw [heq]
        exact zstr_cat_write_inv_long s1 (zstr_len s) src hA (by rw [hC, hB]; omega)
    · rw [if_neg hcond]
      exact zstr_cat_write_inv_short s (zstr_len s) src hl (by omega)
  | true =>
    have hinv := h2 hl
    have hsl : zstr_len s = s.l_len := by simp [zstr_len, hl]
    have hfalse : s.is_long = false → False := by
      rw [hl]
      simp
    unfold zstr_cat_len
    rw [if_pos hl]
    rw [if_neg (by omega : ¬ s.l_cap = 0)]
    by_cases hcond : s.l_cap ≤ zstr_len s + src.length
    · rw [if_pos hcond]
      have hg := growLoop_gt s.l_cap (zstr_len s + src.length)
      have hn : ¬ growLoop s.l_cap (zstr_len s + src.length) < 23 := by omega
      have hc : ¬ (s.is_long = true ∧
          growLoop s.l_cap (zstr_len s + src.length) ≤ s.l_cap) := by
        intro hx
        have := hx.2
        omega
      rcases zstr_reserve_spec ok s (growLoop s.l_cap (zstr_len s + src.length)) hn hc
          with ⟨hok, heq⟩ | ⟨hok, s1, heq, hA, hB, hC⟩
      · rw [heq]
        exact ⟨fun hx => (hfalse hx).elim, fun _ => hinv⟩
      · rw [heq]
        exact zstr_cat_write_inv_long s1 (zstr_len s) src hA (by rw [hC, hB]; omega)
    · rw [if_neg hcond]
      exact zstr_cat_write_inv_long s (zstr_len s) src hl (by omega)

theorem zstr_from_len_inv (ok : Bool) (b : List Nat) :
    ((zstr_from_len ok b).is_long = false → zstr_len (zstr_from_len ok b) < 23) ∧
    ((zstr_from_len ok b).is_long = true →
      23 ≤ (zstr_from_len ok b).l_len ∧
      (zstr_from_len ok b).l_len ≤ (zstr_from_len ok b).l_cap) := by
  unfold zstr_from_len
  by_cases hb : 23 ≤ b.length
  · rw [if_pos hb]
    have hn : ¬ b.length < 23 := by omega
    have hc : ¬ (zstr_init.is_long = true ∧ b.length ≤ zstr_init.l_cap) := by
      simp [zstr_init]
    rcases zstr_reserve_spec ok zstr_init b.length hn hc
        with ⟨hok, heq⟩ | ⟨hok, s1, heq, hA, hB, hC⟩
    · rw [heq]
      exact ⟨fun _ => (by decide : zstr_len zstr_init < 23),
             fun hx => ((by decide : zstr_init.is_long = true → False) hx).elim⟩
    · rw [heq]
      refine ⟨fun hx => ?_, fun _ => ?_⟩
      · exact ((show s1.is_long = false → False by rw [hA]; simp) hx).elim
      · exact ⟨hb, le_of_eq hB.symm⟩
  · rw [if_neg hb]
    refine ⟨fun _ => ?_, fun hx => ?_⟩
    · exact (by omega : b.length % 256 < 23)
    · exact ((by decide : zstr_init.is_long = true → False) hx).elim

theorem zstr_reach_invariant (s : zstr) (h : zstr_reach s) :
    (s.is_long = false → zstr_len s < 23) ∧
    (s.is_long = true → 23 ≤ s.l_len ∧ s.l_len ≤ s.l_cap) := by
  induction h with
  | init =>
    exact ⟨fun _ => by decide, fun hx => ((by decide : zstr_init.is_long = true → False) hx).elim⟩
  | from_len ok b => exact zstr_from_len_inv ok b
  | push ok c hs ih => exact zstr_push_preserves_inv ok c _ ih.1 ih.2
  | cat ok src hs ih => exact zstr_cat_preserves_inv ok src _ ih.1 ih.2

/-- C2: over the values built by construction and the append operations —
`zstr_init`, `zstr_from_len`, `zstr_push_char`, `zstr_cat_len`, under any
pattern of allocator outcomes — a string of length < 23 is always in the
inline representation, and a string of length ≥ 23 is heap-backed with
capacity ≥ length.  Moreover the short cases never allocate: when the
result stays under the inline capacity, construction and both append
operations are independent of the allocator and leave the representation
inline. -/
theorem C2_sso_inline_heap_invariant :
    (∀ s : zstr, zstr_reach s →
      (zstr_len s < 23 → s.is_long = false) ∧
      (23 ≤ zstr_len s → s.is_long = true ∧ zstr_len s ≤ s.l_cap)) ∧
    (∀ (ok : Bool) (b : List Nat), b.length < 23 →
      zstr_from_len ok b = zstr_from_len true b ∧
      (zstr_from_len true b).is_long = false) ∧
    (∀ (ok : Bool) (s : zstr) (c : Nat), s.is_long = false → zstr_len s + 1 < 23 →
      zstr_push_char ok s c = zstr_push_char true s c ∧
      (zstr_push_char true s c).1.is_long = false) ∧
    (∀ (ok : Bool) (s : zstr) (src : List Nat), s.is_long = false →
      zstr_len s + src.length < 23 →
      zstr_cat_len ok s src = zstr_cat_len true s src ∧
      (zstr_cat_len true s src).1.is_long = false) := by
  refine ⟨?_, ?_, ?_, ?_⟩
  · intro s hs
    have hinv := zstr_reach_invariant s hs
    constructor
    · intro hlen
      cases hb : s.is_long
      · rfl
      · have hl2 := hinv.2 hb
        have hz : zstr_len s = s.l_len := by simp [zstr_len, hb]
        omega
    · intro hlen
      cases hb : s.is_long
      · have := hinv.1 hb
        omega
      · refine ⟨rfl, ?_⟩
        have := hinv.2 hb
        have hz : zstr_len s = s.l_len := by simp [zstr_len, hb]
        omega
  · intro ok b hblt
    have hnot : ¬ 23 ≤ b.length := by omega
    constructor
    · unfold zstr_from_len
      rw [if_neg hnot, if_neg hnot]
    · unfold zstr_from_len
      rw [if_neg hnot]
      rfl
  · intro ok s c hl hlen1
    have hcond : ¬ (23 : Nat) ≤ zstr_len s + 1 := by omega
    constructor
    · unfold zstr_push_char
      rw [if_neg (show ¬ s.is_long = true by rw [hl]; simp)]
      rw [if_neg hcond, if_neg hcond]
    · unfold zstr_push_char
      rw [if_neg (show ¬ s.is_long = true by rw [hl]; simp), if_neg hcond]
      unfold zstr_push_write
      rw [if_neg (by simp [hl])]
      exact hl
  · intro ok s src hl hlen1
    have hcond : ¬ (23 : Nat) ≤ zstr_len s + src.length := by omega
    constructor
    · unfold zstr_cat_len
      rw [if_neg (show ¬ s.is_long = true by rw [hl]; simp)]
      rw [if_neg hcond, if_neg hcond]
    · unfold zstr_cat_len
      rw [if_neg (show ¬ s.is_long = true by rw [hl]; simp), if_neg hcond]
      unfold zstr_cat_write
      rw [if_neg (by simp [hl])]
      exact hl

/-- C2 witness: a 30-byte construction is heap-backed with capacity ≥
length, and pushing onto a 1-byte inline string stays inline. -/
theorem C2_sso_inline_heap_invariant_witness :
    ((zstr_from_len true (List.replicate 30 97)).is_long = true ∧
      zstr_len (zstr_from_len true (List.replicate 30 97)) ≤
        (zstr_from_len true (List.replicate 30 97)).l_cap) ∧
    (zstr_push_char true (zstr_from_len true [97]) 98).1.is_long = false :=
  ⟨(C2_sso_inline_heap_invariant.1 (zstr_from_len true (List.replicate 30 97))
      (zstr_reach.from_len true (List.replicate 30 97))).2 (by decide),
   (C2_sso_inline_heap_invariant.2.2.1 true (zstr_from_len true [97]) 98
      (by decide) (by decide)).2⟩

theorem findSub_some_facts (hay nd : List Nat) (i : Nat) (h : findSub hay nd = some i) :
    nd.isPrefixOf (hay.drop i) = true ∧ i ≤ hay.length := by
  unfold findSub at h
  have h1 := List.find?_some h
  have h2 := List.mem_of_find?_eq_some h
  rw [List.mem_range] at h2
  exact ⟨h1, by omega⟩

theorem findSub_some_le (hay nd : List Nat) (i : Nat) (hnd : nd ≠ [])
    (h : findSub hay nd = some i) : i + nd.length ≤ hay.length := by
  obtain ⟨hpre, hle⟩ := findSub_some_facts hay nd i h
  have hp : nd <+: hay.drop i := List.isPrefixOf_iff_prefix.mp hpre
  have hlen := List.IsPrefix.length_le hp
  rw [List.length_drop] at hlen
  rcases Nat.eq_zero_or_pos nd.length with h0 | h0
  · exact absurd (List.length_eq_zero.mp h0) hnd
  · omega

theorem countOccF_mul_le (nd : List Nat) :
    ∀ fuel src, nd ≠ [] → src.length < fuel →
      countOccF fuel src nd * nd.length ≤ src.length := by
  intro fuel
  induction fuel with
  | zero =>
    intro src _ _
    simp [countOccF]
  | succ k ih =>
    intro src hnd hlt
    have hndpos : 0 < nd.length := List.length_pos.mpr hnd
    cases hf : findSub src nd with
    | none => simp [countOccF, hf]
    | some i =>
      have hle := findSub_some_le src nd i hnd hf
      have hrec := ih (src.drop (i + nd.length)) hnd (by rw [List.length_drop]; omega)
      simp only [countOccF, hf]
      rw [List.length_drop] at hrec
      rw [Nat.succ_mul]
      omega

theorem replaceAllF_length (nd rep : List Nat) :
    ∀ fuel src, nd ≠ [] → src.length < fuel →
      (replaceAllF fuel src nd rep).length + countOccF fuel src nd * nd.length
        = src.length + countOccF fuel src nd * rep.length := by
  intro fuel
  induction fuel with
  | zero =>
    intro src _ _
    simp [replaceAllF, countOccF]
  | succ k ih =>
    intro src hnd hlt
    have hndpos : 0 < nd.length := List.length_pos.mpr hnd
    cases hf : findSub src nd with
    | none => simp [replaceAllF, countOccF, hf]
    | some i =>
      have hle := findSub_some_le src nd i hnd hf
      have hi : i ≤ src.length := by omega
      have hrec := ih (src.drop (i + nd.length)) hnd (by rw [List.length_drop]; omega)
      simp only [replaceAllF, countOccF, hf, List.length_append, List.length_take]
      rw [List.length_drop] at hrec
      rw [Nat.succ_mul, Nat.succ_mul]
      omega

theorem prefix_take_calc (pre tail : List Nat) (p : Nat) (h : pre.length = p) :
    (pre ++ tail).take p = pre :=
  List.take_left' h

theorem prefix_drop_calc (pre tail : List Nat) (p m : Nat) (h : pre.length = p) :
    (pre ++ tail).drop (p + m) = tail.drop m := by
  rw [List.drop_append_eq_append_drop, h]
  rw [List.drop_eq_nil_of_le (by omega), Nat.add_sub_cancel_left]
  simp

theorem memWrite_memWrite (dest a b : List Nat) (pos : Nat) (hpos : pos ≤ dest.length) :
    memWrite (memWrite dest pos a) (pos + a.length) b =
      dest.take pos ++ a ++ b ++ dest.drop (pos + a.length + b.length) := by
  unfold memWrite
  have hTA : (dest.take pos ++ a).length = pos + a.length := by
    rw [List.length_append, List.length_take]
    omega
  rw [List.take_left' hTA]
  have hdp : (dest.take pos ++ a ++ dest.drop (pos + a.length)).drop
      (pos + a.length + b.length) = dest.drop (pos + a.length + b.length) := by
    rw [prefix_drop_calc (dest.take pos ++ a) (dest.drop (pos + a.length))
          (pos + a.length) b.length hTA]
    rw [List.drop_drop]
  rw [hdp]

theorem takeWhile_eq_take_of (l : List Nat) (n : Nat) (hn : n < l.length)
    (hz : l.getD n 0 = 0) (hnz : ∀ b ∈ l.take n, b ≠ 0) :
    l.takeWhile (fun b => b != 0) = l.take n := by
  induction l generalizing n with
  | nil => simp at hn
  | cons x xs ih =>
    cases n with
    | zero =>
      have hx : x = 0 := by simpa using hz
      subst hx
      simp [List.takeWhile_cons]
    | succ m =>
      have hx : x ≠ 0 := hnz x (by simp)
      have hrec := ih m (by simpa using hn) (by simpa using hz)
        (fun b hb => hnz b (by simp [hb]))
      simp [List.takeWhile_cons, hx, hrec]

theorem cstr_eq_content (s : zstr)
    (hterm : (zstr_buf s).getD (zstr_len s) 0 = 0)
    (hlt : zstr_len s < (zstr_buf s).length)
    (hnz : ∀ b ∈ zstr_content s, b ≠ 0) :
    zstr_cstr_bytes s = zstr_content s := by
  unfold zstr_cstr_bytes zstr_content
  exact takeWhile_eq_take_of (zstr_buf s) (zstr_len s) hlt hterm hnz

theorem size_t_new_len (len c t r : Nat) (ht : t < 2 ^ 64) (hr : r < 2 ^ 64)
    (hb : len + c * r < 2 ^ 64) (hct : c * t ≤ len) :
    (len + c * ((r + (2 ^ 64 - t % 2 ^ 64)) % 2 ^ 64) % 2 ^ 64) % 2 ^ 64
      = len + c * r - c * t := by
  have ht' : t % 2 ^ 64 = t := Nat.mod_eq_of_lt ht
  rw [ht']
  rcases le_or_lt t r with htr | htr
  · have h1 : (r + (2 ^ 64 - t)) % 2 ^ 64 = r - t := by omega
    rw [h1]
    have h2 : c * (r - t) + c * t = c * r := by
      rw [← Nat.mul_add]
      congr 1
      omega
    have h3 : c * (r - t) % 2 ^ 64 = c * (r - t) := Nat.mod_eq_of_lt (by omega)
    rw [h3]
    omega
  · have h1 : (r + (2 ^ 64 - t)) % 2 ^ 64 = 2 ^ 64 - (t - r) := by omega
    rw [h1]
    have h2 : c * (2 ^ 64 - (t - r)) = c * 2 ^ 64 - c * (t - r) := Nat.mul_sub c _ _
    rw [h2]
    have h3 : c * (t - r) + c * r = c * t := by
      rw [← Nat.mul_add]
      congr 1
      omega
    have h4 : c * (t - r) ≤ c * 2 ^ 64 := Nat.mul_le_mul_left c (by omega)
    rw [Nat.mul_comm c (2 ^ 64)] at h2 h4 ⊢
    omega

theorem rewriteF_spec (nd rep : List Nat) :
    ∀ fuel src dest pos, nd ≠ [] → src.length < fuel →
      pos + (replaceAllF fuel src nd rep).length + 1 ≤ dest.length →
      rewriteF fuel dest pos src nd rep =
        (dest.take pos ++ replaceAllF fuel src nd rep ++ [0] ++
          dest.drop (pos + (replaceAllF fuel src nd rep).length + 1),
         pos + (replaceAllF fuel src nd rep).length) := by
  intro fuel
  induction fuel with
  | zero =>
    intro src dest pos hnd hlt _
    exact absurd hlt (Nat.not_lt_zero _)
  | succ k ih =>
    intro src dest pos hnd hlt hroom
    have hndpos : 0 < nd.length := List.length_pos.mpr hnd
    cases hf : findSub src nd with
    | none =>
      simp only [replaceAllF, hf] at hroom ⊢
      simp only [rewriteF, hf]
      unfold memWrite
      simp [List.append_assoc, List.length_append, Nat.add_assoc]
    | some i =>
      obtain ⟨hpre, hile⟩ := findSub_some_facts src nd i hf
      have hle : i + nd.length ≤ src.length := findSub_some_le src nd i hnd hf
      have hAi : (src.take i).length = i := by
        rw [List.length_take]
        omega
      simp only [replaceAllF, hf] at hroom ⊢
      simp only [rewriteF, hf]
      have hroomN := hroom
      simp only [List.length_append, hAi] at hroomN
      have hpos : pos ≤ dest.length := by omega
      rw [show pos + i = pos + (src.take i).length by rw [hAi]]
      rw [memWrite_memWrite dest (src.take i) rep pos hpos]
      have hlt2 : (src.drop (i + nd.length)).length < k := by
        rw [List.length_drop]
        omega
      have hlenD2 : (dest.take pos ++ src.take i ++ rep ++
          dest.drop (pos + (src.take i).length + rep.length)).length = dest.length := by
        simp only [List.length_append, List.length_take, List.length_drop, hAi]
        omega
      have hroom2 : pos + (src.take i).length + rep.length +
          (replaceAllF k (src.drop (i + nd.length)) nd rep).length + 1 ≤
          (dest.take pos ++ src.take i ++ rep ++
            dest.drop (pos + (src.take i).length + rep.length)).length := by
        rw [hlenD2, hAi]
        omega
      rw [ih (src.drop (i + nd.length))
            (dest.take pos ++ src.take i ++ rep ++
              dest.drop (pos + (src.take i).length + rep.length))
            (pos + (src.take i).length + rep.length) hnd hlt2 hroom2]
      have hpre1 : (dest.take pos ++ src.take i ++ rep).length =
          pos + (src.take i).length + rep.length := by
        simp only [List.length_append, List.length_take]
        omega
      have htake : (dest.take pos ++ src.take i ++ rep ++
            dest.drop (pos + (src.take i).length + rep.length)).take
            (pos + (src.take i).length + rep.length) =
          dest.take pos ++ src.take i ++ rep :=
        prefix_take_calc _ _ _ hpre1
      have hdrop : ∀ m : Nat, (dest.take pos ++ src.take i ++ rep ++
            dest.drop (pos + (src.take i).length + rep.length)).drop
            (pos + (src.take i).length + rep.length + m) =
          dest.drop (pos + (src.take i).length + rep.length + m) := by
        intro m
        rw [prefix_drop_calc _ _ _ m hpre1]
        rw [List.drop_drop]
      rw [htake]
      rw [show pos + (src.take i).length + rep.length +
            (replaceAllF k (src.drop (i + nd.length)) nd rep).length + 1 =
          pos + (src.take i).length + rep.length +
            ((replaceAllF k (src.drop (i + nd.length)) nd rep).length + 1) by omega]
      rw [hdrop ((replaceAllF k (src.drop (i + nd.length)) nd rep).length + 1)]
      simp only [Prod.mk.injEq]
      constructor
      · simp only [List.append_assoc, List.length_append, hAi, Nat.add_assoc]
      · simp only [List.length_append, hAi]
        omega

/-- C4 counterexample: on the value built from the bytes "at\x00at" (an
embedded NUL), replacing target "at" by "xyz" must — per the claim — touch
every non-overlapping occurrence (there are 2) and produce exact length
5 + 2 × (3 − 2) = 7; the code scans with C-string search, replaces only the
occurrence before the NUL, and produces length 6 with content differing
from a full rewrite. -/
theorem C4_replace_claim_counterexample :
    countOcc (zstr_content (zstr_from_len true [97, 116, 0, 97, 116])) [97, 116] = 2 ∧
    zstr_len (zstr_replace true (zstr_from_len true [97, 116, 0, 97, 116])
      [97, 116] [120, 121, 122]).1 = 6 ∧
    zstr_len (zstr_replace true (zstr_from_len true [97, 116, 0, 97, 116])
      [97, 116] [120, 121, 122]).1 ≠
      zstr_len (zstr_from_len true [97, 116, 0, 97, 116]) +
        countOcc (zstr_content (zstr_from_len true [97, 116, 0, 97, 116])) [97, 116] *
          ([120, 121, 122] : List Nat).length -
        countOcc (zstr_content (zstr_from_len true [97, 116, 0, 97, 116])) [97, 116] *
          ([97, 116] : List Nat).length ∧
    zstr_content (zstr_replace true (zstr_from_len true [97, 116, 0, 97, 116])
      [97, 116] [120, 121, 122]).1 ≠
      spec_replace_all (zstr_content (zstr_from_len true [97, 116, 0, 97, 116]))
        [97, 116] [120, 121, 122] := by
  decide

/-- C4 (amended): replace fails immediately on an empty target leaving the
value unmodified, and whenever it reports failure (including allocation
failure) the value is left unchanged; replacing "at" by "og" in
"the cat sat" yields "the cog sog"; and for every value whose content
contains no embedded NUL byte (with its buffer properly terminated), with a
nonempty target and arithmetic within size_t range, it replaces every
non-overlapping occurrence of the target — the resulting content is the
left-to-right rewrite and the resulting length satisfies exactly
new_length = old_length + occurrences × (|replacement| − |target|). -/
theorem C4_replace_empty_target_and_exact_rewrite :
    (∀ (ok : Bool) (s : zstr) (rep : List Nat), zstr_replace ok s [] rep = (s, false)) ∧
    (∀ (ok : Bool) (s : zstr) (target rep : List Nat),
      (zstr_replace ok s target rep).2 = false → (zstr_replace ok s target rep).1 = s) ∧
    ((zstr_replace true
        (zstr_from_len true [116, 104, 101, 32, 99, 97, 116, 32, 115, 97, 116])
        [97, 116] [111, 103]).2 = true ∧
      zstr_content (zstr_replace true
        (zstr_from_len true [116, 104, 101, 32, 99, 97, 116, 32, 115, 97, 116])
        [97, 116] [111, 103]).1 =
        [116, 104, 101, 32, 99, 111, 103, 32, 115, 111, 103]) ∧
    (∀ (s : zstr) (target rep : List Nat),
      target ≠ [] →
      (zstr_buf s).getD (zstr_len s) 0 = 0 →
      zstr_len s < (zstr_buf s).length →
      (∀ b ∈ zstr_content s, b ≠ 0) →
      target.length < 2 ^ 64 → rep.length < 2 ^ 64 →
      zstr_len s + countOcc (zstr_content s) target * rep.length < 2 ^ 64 →
      (zstr_replace true s target rep).2 = true ∧
      zstr_content (zstr_replace true s target rep).1 =
        spec_replace_all (zstr_content s) target rep ∧
      zstr_len (zstr_replace true s target rep).1 +
          countOcc (zstr_content s) target * target.length
        = zstr_len s + countOcc (zstr_content s) target * rep.length) := by
  refine ⟨?_, ?_, ⟨by decide, by decide⟩, ?_⟩
  · intro ok s rep
    unfold zstr_replace
    rw [if_pos rfl]
  · intro ok s target rep h
    by_cases ht : target = []
    · have he : zstr_replace ok s target rep = (s, false) := by
        unfold zstr_replace
        rw [if_pos ht]
      rw [he]
    · unfold zstr_replace at h ⊢
      rw [if_neg ht] at h ⊢
      cases hf : findSub (zstr_cstr_bytes s) target with
      | none =>
        rfl
      | some j =>
        rw [hf] at h
        rcases hres : zstr_reserve ok zstr_init ((zstr_len s +
            countOcc (zstr_cstr_bytes s) target *
              ((rep.length + (2 ^ 64 - target.length % 2 ^ 64)) % 2 ^ 64) % 2 ^ 64)
            % 2 ^ 64) with ⟨r0, rb⟩
        rw [hres] at h
        cases rb with
        | false => rfl
        | true =>
          dsimp only at h
          split at h <;> simp_all
  · intro s target rep hnd hterm hltb hnz hts hrs hbound
    have hndpos : 0 < target.length := List.length_pos.mpr hnd
    have hc : zstr_cstr_bytes s = zstr_content s := cstr_eq_content s hterm hltb hnz
    have hsrclen : (zstr_content s).length = zstr_len s := by
      unfold zstr_content
      rw [List.length_take]
      omega
    set src := zstr_content s with hsrc
    set c := countOcc src target with hcdef
    have hfuel : src.length < src.length + 1 := Nat.lt_succ_self _
    have hub : c * target.length ≤ src.length := by
      rw [hcdef]
      unfold countOcc
      exact countOccF_mul_le target (src.length + 1) src hnd hfuel
    have hNL : (zstr_len s + c * ((rep.length + (2 ^ 64 - target.length % 2 ^ 64))
          % 2 ^ 64) % 2 ^ 64) % 2 ^ 64
        = zstr_len s + c * rep.length - c * target.length := by
      apply size_t_new_len (zstr_len s) c target.length rep.length hts hrs hbound
      omega
    have hlenR : (spec_replace_all src target rep).length + c * target.length
        = src.length + c * rep.length := by
      rw [hcdef]
      unfold countOcc spec_replace_all
      exact replaceAllF_length target rep (src.length + 1) src hnd hfuel
    unfold zstr_replace
    rw [if_neg hnd, hc, ← hcdef]
    cases hf : findSub src target with
    | none =>
      refine ⟨rfl, ?_, ?_⟩
      · show zstr_content s = spec_replace_all src target rep
        unfold spec_replace_all
        simp only [replaceAllF, hf]
      · have hc0 : c = 0 := by
          rw [hcdef]
          unfold countOcc
          simp [countOccF, hf]
        show zstr_len s + c * target.length = zstr_len s + c * rep.length
        rw [hc0]
        simp
    | some j =>
      rw [hNL]
      set nl := zstr_len s + c * rep.length - c * target.length with hnl
      set R := spec_replace_all src target rep with hR
      have hRlen : R.length = nl := by
        rw [hnl]
        omega
      have hRlenF : (replaceAllF (src.length + 1) src target rep).length = nl := hRlen
      by_cases h23 : nl < 23
      · have hres : zstr_reserve true zstr_init nl = (zstr_init, true) := by
          unfold zstr_reserve
          rw [if_pos h23]
        rw [hres]
        have hroom0 : 0 + (replaceAllF (src.length + 1) src target rep).length + 1 ≤
            (List.replicate 23 0).length := by
          rw [List.length_replicate, hRlenF]
          omega
        have hrw := rewriteF_spec target rep (src.length + 1) src (List.replicate 23 0) 0
          hnd hfuel hroom0
        refine ⟨rfl, ?_, ?_⟩
        · show zstr_content { zstr_init with
              s_buf := (rewriteF (src.length + 1) (List.replicate 23 0) 0 src target rep).1,
              s_len := nl % 256 } = R
          rw [hrw]
          unfold zstr_content zstr_len zstr_buf zstr_init
          simp only [List.take_zero, List.nil_append, Nat.zero_add]
          rw [if_neg (by simp), if_neg (by simp)]
          rw [Nat.mod_eq_of_lt (by omega : nl < 256)]
          rw [List.append_assoc]
          rw [prefix_take_calc (replaceAllF (src.length + 1) src target rep) _ nl hRlenF]
          rfl
        · show nl % 256 + c * target.length = zstr_len s + c * rep.length
          rw [Nat.mod_eq_of_lt (by omega : nl < 256), hnl]
          omega
      · have hres : zstr_reserve true zstr_init nl =
            (⟨true, List.replicate 23 0, 0, List.replicate (nl + 1) 0, 0, nl⟩, true) := by
          unfold zstr_reserve zstr_init
          rw [if_neg (by omega)]
          simp [List.replicate_succ]
        rw [hres]
        have hroom0 : 0 + (replaceAllF (src.length + 1) src target rep).length + 1 ≤
            (List.replicate (nl + 1) 0).length := by
          rw [List.length_replicate, hRlenF]
          omega
        have hrw := rewriteF_spec target rep (src.length + 1) src
          (List.replicate (nl + 1) 0) 0 hnd hfuel hroom0
        refine ⟨rfl, ?_, ?_⟩
        · show zstr_content { (⟨true, List.replicate 23 0, 0, List.replicate (nl + 1) 0,
              0, nl⟩ : zstr) with
              l_ptr := (rewriteF (src.length + 1) (List.replicate (nl + 1) 0)
                0 src target rep).1,
              l_len := nl } = R
          rw [hrw]
          unfold zstr_content zstr_len zstr_buf
          simp only [List.take_zero, List.nil_append, Nat.zero_add, if_true]
          rw [List.append_assoc]
          rw [prefix_take_calc (replaceAllF (src.length + 1) src target rep) _ nl hRlenF]
          rfl
        · show nl + c * target.length = zstr_len s + c * rep.length
          rw [hnl]
          omega

/-- C4 witness: the amended replace theorem applied at a concrete input:
replacing byte 97 by bytes 99 100 in the two-byte string 97 98. -/
theorem C4_replace_amended_witness :
    zstr_content (zstr_replace true (zstr_from_len true [97, 98]) [97] [99, 100]).1 =
      spec_replace_all (zstr_content (zstr_from_len true [97, 98])) [97] [99, 100] :=
  (C4_replace_empty_target_and_exact_rewrite.2.2.2 (zstr_from_len true [97, 98]) [97] [99, 100]
    (by decide) (by decide) (by decide) (by decide) (by decide) (by decide) (by decide)).2.1
